import Mathlib

/-
Verification development for the telegram.go refactoring helper
(src/scripts/refactor_telegram.py).

The script is embedded shallowly:
* source text is a `List Char`;
* Python dicts are association lists updated in place (insertion order
  preserved, last write wins), see `insertUpdate` / `alookup`;
* the regexes of the script are embedded as deterministic scanners that
  follow the greedy/backtracking behaviour of `re` on these concrete
  patterns; the classes `\s` and `\w` are modelled over ASCII;
* the filesystem is an association list from relative paths (below the
  target directory) to file contents.

Theorems at the end of the file check the specification's claims
against these definitions.
-/

set_option maxRecDepth 4000

namespace RefactorTelegram

/-- The opening brace character, written via its code point. -/
def lbrace : Char := Char.ofNat 123

/-- The closing brace character, written via its code point. -/
def rbrace : Char := Char.ofNat 125

/-- ASCII whitespace, modelling the regex class \s. -/
def isWs (c : Char) : Bool :=
  c == ' ' || c == '\t' || c == '\n' || c == '\x0d' || c == '\x0c' || c == '\x0b'

/-- Bounded character range test over code points. -/
def between (lo hi c : Char) : Bool :=
  Nat.ble lo.toNat c.toNat && Nat.ble c.toNat hi.toNat

/-- First character of an identifier: [a-zA-Z_]. -/
def isIdentStart (c : Char) : Bool :=
  between 'a' 'z' c || between 'A' 'Z' c || c == '_'

/-- Later character of an identifier: [a-zA-Z0-9_]. -/
def isIdentChar (c : Char) : Bool :=
  isIdentStart c || between '0' '9' c

/-- ASCII model of the regex class \w. -/
def isWordChar (c : Char) : Bool := isIdentChar c

/-- Signed brace contribution of one character: +1 for an opening brace,
-1 for a closing brace, 0 otherwise. -/
def delta (c : Char) : Int :=
  if c = lbrace then 1 else if c = rbrace then -1 else 0

/-- Net brace depth of a character list. -/
def depthSum (cs : List Char) : Int :=
  (cs.map delta).sum

/-- The brace-matching loop of `_extract_functions` (lines 53-63 of the
script): walk the suffix of the source starting at `pos`, incrementing the
counter on an opening brace and decrementing on a closing brace, stopping
at the closing brace where the counter reaches zero, or at end of text.
Returns the final position and counter, exactly as the Python loop leaves
`pos` and `brace_count`. -/
def braceLoopAux : List Char → Nat → Int → Nat × Int
  | [], pos, count => (pos, count)
  | c :: rest, pos, count =>
    if c = lbrace then braceLoopAux rest (pos + 1) (count + 1)
    else if c = rbrace then
      if count - 1 = 0 then (pos, count - 1)
      else braceLoopAux rest (pos + 1) (count - 1)
    else braceLoopAux rest (pos + 1) count

/-- Body capture of `_extract_functions` (lines 52-66): run the brace loop
from the header's opening brace; if the counter came back to zero, the
body is the slice of the source from the start of the header through the
closing brace, otherwise nothing is captured. -/
def captureBody (content : List Char) (startPos bracePos : Nat) : Option (List Char) :=
  if (braceLoopAux (content.drop bracePos) bracePos 0).2 = 0 then
    some ((content.take ((braceLoopAux (content.drop bracePos) bracePos 0).1 + 1)).drop startPos)
  else none

/-- A match of the function-header regex
`func\s+(\([^)]*\))?\s*([a-zA-Z_][a-zA-Z0-9_]*)\s*\([^)]*\)([^{]*)?{`:
start offset of the match, receiver text (group 1, with parentheses, empty
when absent), function name (group 2), and the end offset of the match
(one past the opening brace). -/
structure Header where
  startPos : Nat
  receiver : String
  name : String
  endPos : Nat
deriving DecidableEq, Repr

/-- Attempt of the optional receiver group `(\([^)]*\))?` at the head of
`cs`: on a parenthesised group the matched text and the rest are returned,
otherwise the group is skipped and `cs` is returned unchanged. -/
def parseReceiver (cs : List Char) : String × List Char :=
  match cs with
  | '(' :: rest =>
    let inside := rest.takeWhile (fun c => c != ')')
    match rest.drop inside.length with
    | ')' :: r2 => (String.mk ('(' :: (inside ++ [')'])), r2)
    | _ => ("", cs)
  | _ => ("", cs)

/-- One attempt of the function-header regex anchored at the head of `cs`,
with the deterministic outcome of Python's greedy matching on this
pattern: literal `func`, at least one whitespace, the optional receiver
group, optional whitespace, an identifier, optional whitespace, a
parenthesised parameter list, then everything up to and including the
first opening brace.  Returns the receiver text, the name, and the rest
of the input after the opening brace. -/
def parseHeaderCore (cs : List Char) : Option (String × String × List Char) :=
  match cs with
  | 'f' :: 'u' :: 'n' :: 'c' :: rest =>
    let ws := rest.takeWhile isWs
    if ws.length = 0 then none else
    let rp := parseReceiver (rest.drop ws.length)
    let r3 := rp.2.dropWhile isWs
    match r3 with
    | c :: r4 =>
      if isIdentStart c then
        let tl := r4.takeWhile isIdentChar
        let r6 := (r4.drop tl.length).dropWhile isWs
        match r6 with
        | '(' :: r7 =>
          let ps := r7.takeWhile (fun ch => ch != ')')
          match r7.drop ps.length with
          | ')' :: r8 =>
            let pre := r8.takeWhile (fun ch => ch != lbrace)
            match r8.drop pre.length with
            | d :: r9 =>
              if d = lbrace then some (rp.1, String.mk (c :: tl), r9) else none
            | [] => none
          | _ => none
        | _ => none
      else none
    | [] => none
  | _ => none

/-- The scan of `re.finditer` over the source: try the header pattern at
every position from left to right and continue after the end of each
match.  The fuel argument bounds the number of steps; it is initialised
to more than the length of the input, which every run stays under because
each step consumes at least one character. -/
def findHeadersAux : Nat → List Char → Nat → List Header
  | 0, _, _ => []
  | _ + 1, [], _ => []
  | fuel + 1, c :: rest, i =>
    match parseHeaderCore (c :: rest) with
    | some (receiver, name, r) =>
      let consumed := (c :: rest).length - r.length
      ⟨i, receiver, name, i + consumed⟩ :: findHeadersAux fuel r (i + consumed)
    | none => findHeadersAux fuel rest (i + 1)

/-- All matches of the function-header regex in the source, in source
order. -/
def findHeaders (content : List Char) : List Header :=
  findHeadersAux (content.length + 1) content 0

/-- Token of the embedded name regexes of `_categorize_function`: a
literal run, a greedy `.*`, or a group of literal alternatives. -/
inductive RTok where
  | lit : String → RTok
  | dotStar : RTok
  | alts : List String → RTok
deriving DecidableEq, Repr

/-- Matching of a token list against a character list, anchored at the
start and allowed to stop before the end (the semantics of `re.match`):
a literal must be a prefix, `.*` skips any number of non-newline
characters, an alternative group behaves as one of its literals. -/
def reToksMatch : List RTok → List Char → Bool
  | [], _ => true
  | (RTok.lit s) :: ts, cs =>
    s.toList.isPrefixOf cs && reToksMatch ts (cs.drop s.toList.length)
  | (RTok.alts ss) :: ts, cs =>
    ss.any (fun s => s.toList.isPrefixOf cs && reToksMatch ts (cs.drop s.toList.length))
  | RTok.dotStar :: ts, cs =>
    (List.range (cs.length + 1)).any
      (fun k => (cs.take k).all (fun ch => ch != '\n') && reToksMatch ts (cs.drop k))

/-- Prefix-anchored match of one pattern against a function name, the
embedding of `re.match(pattern, name)`. -/
def reMatch (p : List RTok) (name : String) : Bool :=
  reToksMatch p name.toList

/-- The ordered category table of `_categorize_function` (lines 94-104),
with each Python regex translated token by token. -/
def categories : List (String × List (List RTok)) :=
  [ ("command",
      [[RTok.lit "handle", RTok.dotStar, RTok.lit "Command"],
       [RTok.lit "handle",
        RTok.alts ["Start", "Help", "Download", "List", "Cancel", "Tasks",
                   "AddTask", "QuickTask", "DelTask", "RunTask"]]]),
    ("callback",
      [[RTok.lit "handle", RTok.dotStar, RTok.lit "Callback"],
       [RTok.lit "handle", RTok.dotStar, RTok.lit "WithEdit"],
       [RTok.lit "handleCallbackQuery"]]),
    ("render",
      [[RTok.lit "render", RTok.dotStar],
       [RTok.lit "get", RTok.dotStar, RTok.lit "Keyboard"],
       [RTok.lit "get", RTok.dotStar, RTok.lit "Menu"]]),
    ("util",
      [[RTok.lit "format", RTok.dotStar],
       [RTok.lit "escape", RTok.dotStar],
       [RTok.lit "split", RTok.dotStar],
       [RTok.lit "encode", RTok.dotStar],
       [RTok.lit "decode", RTok.dotStar]]),
    ("message",
      [[RTok.lit "send", RTok.dotStar],
       [RTok.lit "edit", RTok.dotStar],
       [RTok.lit "answer", RTok.dotStar]]),
    ("file",
      [[RTok.lit "handleFile", RTok.dotStar],
       [RTok.lit "handleBrowse", RTok.dotStar],
       [RTok.lit "handleDownloadFile", RTok.dotStar]]),
    ("task",
      [[RTok.lit "handleTask", RTok.dotStar],
       [RTok.lit "handleQuick", RTok.dotStar],
       [RTok.lit "handleAdd", RTok.dotStar],
       [RTok.lit "handleDel", RTok.dotStar],
       [RTok.lit "handleRun", RTok.dotStar]]),
    ("system",
      [[RTok.lit "handleSystem", RTok.dotStar],
       [RTok.lit "handleHealth", RTok.dotStar],
       [RTok.lit "handleAlist", RTok.dotStar]]),
    ("manual",
      [[RTok.lit "handleManual", RTok.dotStar],
       [RTok.lit "parseTime", RTok.dotStar],
       [RTok.lit "callManual", RTok.dotStar]]) ]

/-- The closed category set of the specification. -/
def allCategories : List String :=
  ["command", "callback", "render", "util", "message", "file", "task",
   "system", "manual", "other"]

/-- `_categorize_function`: the first category in table order one of whose
patterns matches the name wins; a name matching no pattern is "other". -/
def categorize (name : String) : String :=
  match categories.find? (fun cp => cp.2.any (fun p => reMatch p name)) with
  | some cp => cp.1
  | none => "other"

/-- In-place update of an association list, the embedding of assignment
into a Python dict: an existing key keeps its position and gets the new
value, a new key is appended at the end. -/
def insertUpdate {α : Type} (l : List (String × α)) (k : String) (v : α) : List (String × α) :=
  match l with
  | [] => [(k, v)]
  | (k', v') :: t => if k' = k then (k, v) :: t else (k', v') :: insertUpdate t k v

/-- Key lookup in an association list, the embedding of Python dict
access. -/
def alookup {α : Type} : List (String × α) → String → Option α
  | [], _ => none
  | (k, v) :: t, k' => if k = k' then some v else alookup t k'

/-- Python str.strip over ASCII whitespace. -/
def trimStr (s : String) : String :=
  String.mk (((s.toList.dropWhile isWs).reverse.dropWhile isWs).reverse)

/-- The value stored per function by `_extract_functions` (lines 67-71):
the stripped receiver text, the verbatim body slice, and the category
computed inline from the name. -/
structure FuncInfo where
  receiver : String
  body : String
  category : String
deriving DecidableEq, Repr

/-- The successful extractions, in source order: every header match whose
brace scan terminated with a zero counter, paired with the stored record. -/
def extractPairs (content : List Char) : List (String × FuncInfo) :=
  (findHeaders content).filterMap (fun hd =>
    match captureBody content hd.startPos (hd.endPos - 1) with
    | some body => some (hd.name, ⟨trimStr hd.receiver, String.mk body, categorize hd.name⟩)
    | none => none)

/-- The function store `self.functions` after `_extract_functions`: the
successful extractions written into a dict keyed by name, so a repeated
name overwrites its prior entry. -/
def extractFunctions (content : List Char) : List (String × FuncInfo) :=
  (extractPairs content).foldl (fun acc p => insertUpdate acc p.1 p.2) []

/-- Substring containment on character lists (Python's `in` operator on
strings). -/
def isSubstring (needle : List Char) : List Char → Bool
  | [] => needle.isEmpty
  | c :: t => needle.isPrefixOf (c :: t) || isSubstring needle t

/-- Python `needle in hay` on strings. -/
def strContains (hay needle : String) : Bool :=
  isSubstring needle.toList hay.toList

/-- Python str.lower, modelled over ASCII. -/
def lowerStr (s : String) : String :=
  String.mk (s.toList.map Char.toLower)

/-- The routing table's value type: destination path to ordered function
names. -/
abbrev Mapping : Type := List (String × List String)

/-- The initial mapping dict of `_get_file_mapping` (lines 137-153), every
destination starting with an empty list. -/
def initialMapping : Mapping :=
  [ ("commands/base.go", []),
    ("commands/download.go", []),
    ("commands/file.go", []),
    ("commands/task.go", []),
    ("commands/system.go", []),
    ("commands/help.go", []),
    ("callbacks/base.go", []),
    ("callbacks/menu.go", []),
    ("callbacks/file_ops.go", []),
    ("callbacks/download_ops.go", []),
    ("callbacks/preview.go", []),
    ("utils/formatter.go", []),
    ("utils/message_sender.go", []),
    ("utils/validator.go", []),
    ("utils/encoder.go", []) ]

/-- Append a function name to the list stored under a destination path. -/
def appendTo (m : Mapping) (k : String) (v : String) : Mapping :=
  m.map (fun e => if e.1 = k then (e.1, e.2 ++ [v]) else e)

/-- The routing step of `_get_file_mapping` (lines 156-193) for one
function: nested if/elif chains keyed first on the stored category, then
on case-insensitive substring tests against the name; categories other
than command, callback and util fall through without touching the
mapping. -/
def routeFunc (m : Mapping) (name : String) (info : FuncInfo) : Mapping :=
  if info.category = "command" then
    if strContains (lowerStr name) "download" then appendTo m "commands/download.go" name
    else if ["file", "browse", "list"].any (fun w => strContains (lowerStr name) w) then
      appendTo m "commands/file.go" name
    else if ["task", "quick", "add", "del", "run"].any (fun w => strContains (lowerStr name) w) then
      appendTo m "commands/task.go" name
    else if ["system", "health", "alist"].any (fun w => strContains (lowerStr name) w) then
      appendTo m "commands/system.go" name
    else if ["start", "help"].any (fun w => strContains (lowerStr name) w) then
      appendTo m "commands/help.go" name
    else appendTo m "commands/base.go" name
  else if info.category = "callback" then
    if strContains (lowerStr name) "menu" then appendTo m "callbacks/menu.go" name
    else if strContains (lowerStr name) "file" then appendTo m "callbacks/file_ops.go" name
    else if strContains (lowerStr name) "download" then appendTo m "callbacks/download_ops.go" name
    else if strContains (lowerStr name) "preview" || strContains (lowerStr name) "manual" then
      appendTo m "callbacks/preview.go" name
    else appendTo m "callbacks/base.go" name
  else if info.category = "util" then
    if ["format", "escape", "split"].any (fun w => strContains (lowerStr name) w) then
      appendTo m "utils/formatter.go" name
    else if ["send", "edit", "answer"].any (fun w => strContains (lowerStr name) w) then
      appendTo m "utils/message_sender.go" name
    else if ["encode", "decode", "path"].any (fun w => strContains (lowerStr name) w) then
      appendTo m "utils/encoder.go" name
    else if ["parse", "valid"].any (fun w => strContains (lowerStr name) w) then
      appendTo m "utils/validator.go" name
    else m
  else m

/-- `_get_file_mapping`: route every stored function, in store order, into
the initial mapping. -/
def getFileMapping (funcs : List (String × FuncInfo)) : Mapping :=
  funcs.foldl (fun m p => routeFunc m p.1 p.2) initialMapping

/-- First segment of a destination path: `relative_path.split('/')[0]`,
the characters before the first slash. -/
def firstSegment (p : String) : String :=
  String.mk (p.toList.takeWhile (fun c => c != '/'))

/-- The generated-file header of `_generate_file` (lines 203-217): package
declaration from the first path segment, provenance comment and an empty
placeholder block of imports. -/
def fileHeader (relativePath sourceFile : String) : String :=
  "package " ++ firstSegment relativePath ++
    "\n\n// 此文件由重构脚本自动生成\n// 源文件: " ++ sourceFile ++
    "\n\nimport (\n\t// TODO: 添加必要的导入\n)\n\n"

/-- The text block appended per assigned function (lines 220-224): a
provenance comment plus the stored body, or nothing when the name is
missing from the store. -/
def funcBlock (funcs : List (String × FuncInfo)) (n : String) : String :=
  match alookup funcs n with
  | some info => "// " ++ n ++ " - 从原文件迁移\n" ++ info.body ++ "\n\n"
  | none => ""

/-- Full content of one generated file: the header followed by the block
of every assigned name, accumulated in list order. -/
def genFileContent (sourceFile : String) (funcs : List (String × FuncInfo))
    (relativePath : String) (names : List String) : String :=
  names.foldl (fun acc n => acc ++ funcBlock funcs n) (fileHeader relativePath sourceFile)

/-- `_generate_file` (lines 197-228) as a value: nothing for an empty name
list, otherwise the destination path and the content written there. -/
def generateFile (sourceFile : String) (funcs : List (String × FuncInfo))
    (relativePath : String) (names : List String) : Option (String × String) :=
  if names.isEmpty then none
  else some (relativePath, genFileContent sourceFile funcs relativePath names)

/-- All files written by `generate_file_structure`, in mapping order. -/
def goWrites (sourceFile : String) (funcs : List (String × FuncInfo))
    (mapping : Mapping) : List (String × String) :=
  mapping.filterMap (fun pn => generateFile sourceFile funcs pn.1 pn.2)

/-- The filesystem below the target directory: relative path to file
content, written with overwrite semantics. -/
abbrev FS : Type := List (String × String)

/-- Writing one file: overwrite an existing path, create a new one. -/
def writeFile (fs : FS) (p c : String) : FS := insertUpdate fs p c

/-- Writing a batch of files left to right. -/
def writeAll (fs : FS) (l : List (String × String)) : FS :=
  l.foldl (fun acc pc => writeFile acc pc.1 pc.2) fs

/-- The subdirectories created by `generate_file_structure` (lines
118-121), also the directories walked by the report's tree. -/
def dirsList : List String :=
  ["interfaces", "core", "commands", "callbacks", "renderers", "utils",
   "config", "types"]

/-- Path of the summary report below the target directory. -/
def summaryPath : String := "REFACTORING_SUMMARY.md"

/-- Strict ordinal comparison of character lists, the order used by
Python's sorted on paths within one directory. -/
def strLtList : List Char → List Char → Bool
  | [], [] => false
  | [], _ :: _ => true
  | _ :: _, [] => false
  | a :: as, b :: bs =>
    if a.toNat < b.toNat then true
    else if b.toNat < a.toNat then false
    else strLtList as bs

/-- Strict ordinal comparison of strings. -/
def strLt (a b : String) : Bool := strLtList a.toList b.toList

/-- Reflexive ordinal comparison of strings. -/
def strLe (a b : String) : Bool := strLt a b || a == b

/-- Insert into a sorted list, keeping it sorted. -/
def insSortedBy {α : Type} (le : α → α → Bool) (x : α) : List α → List α
  | [] => [x]
  | y :: ys => if le x y then x :: y :: ys else y :: insSortedBy le x ys

/-- Insertion sort under a boolean comparison. -/
def sortBy {α : Type} (le : α → α → Bool) (l : List α) : List α :=
  l.foldr (insSortedBy le) []

/-- Is `p` a direct child of `dir` with extension .go?  Gives the file
name, the embedding of one hit of `dir_path.glob("*.go")`. -/
def goChild (dir p : String) : Option String :=
  if (dir ++ "/").toList.isPrefixOf p.toList then
    let rest := p.toList.drop (dir.length + 1)
    if rest.all (fun c => c != '/') && ".go".toList.isSuffixOf rest then
      some (String.mk rest)
    else none
  else none

/-- `sorted(dir_path.glob("*.go"))` of the report (line 263): the sorted
.go file names directly under one subdirectory, re-read from the
filesystem. -/
def globGo (dir : String) (fs : FS) : List String :=
  sortBy strLe ((fs.map Prod.fst).filterMap (goChild dir))

/-- Per-category counting of `generate_summary_report` (lines 247-250):
a dict from category to count, bumped per stored function. -/
def bumpCount (l : List (String × Nat)) (k : String) : List (String × Nat) :=
  match l with
  | [] => [(k, 1)]
  | (k', n) :: t => if k' = k then (k', n + 1) :: t else (k', n) :: bumpCount t k

/-- The category-count dict in store order. -/
def categoryCounts (funcs : List (String × FuncInfo)) : List (String × Nat) :=
  funcs.foldl (fun acc p => bumpCount acc p.2.category) []

/-- Tuple comparison used by `sorted(categories.items())`. -/
def pairLe (a b : String × Nat) : Bool :=
  strLt a.1 b.1 || (a.1 == b.1 && Nat.ble a.2 b.2)

/-- The per-category table of the report, sorted by label. -/
def sortedCounts (funcs : List (String × FuncInfo)) : List (String × Nat) :=
  sortBy pairLe (categoryCounts funcs)

/-- The directory-tree section of the report (lines 259-264), re-read
from the filesystem after the writer ran. -/
def treeSection (fs : FS) : String :=
  String.join (dirsList.map (fun d =>
    "├── " ++ d ++ "/\n" ++
      String.join ((globGo d fs).map (fun n => "│   ├── " ++ n ++ "\n"))))

/-- Full content of REFACTORING_SUMMARY.md (lines 236-281). -/
def summaryContent (sourceFile : String) (funcs : List (String × FuncInfo))
    (consts : List (String × String)) (fs : FS) : String :=
  "# Telegram Handler 重构摘要\n\n## 原始文件分析\n- 源文件: `" ++ sourceFile ++
    "`\n- 函数总数: " ++ toString funcs.length ++
    "\n- 常量总数: " ++ toString consts.length ++
    "\n\n## 函数分类统计\n" ++
    String.join ((sortedCounts funcs).map
      (fun p => "- " ++ p.1 ++ ": " ++ toString p.2 ++ " 个函数\n")) ++
    "\n## 重构后文件结构\n\n```\ntelegram/\n" ++
    treeSection fs ++
    "```\n\n" ++
    "## 下一步行动\n\n1. ✅ 已完成结构化提取\n2. 🔄 需要手动调整导入依赖\n" ++
    "3. 🔄 需要实现接口定义\n4. 🔄 需要编写单元测试\n5. 🔄 需要集成测试验证\n\n" ++
    "## 注意事项\n\n- 生成的文件需要手动调整导入语句\n" ++
    "- 函数间的依赖关系需要重新整理\n- 建议逐步迁移，保持原文件作为备份\n"

/-- One attempt of the constant regex `const\s+(\w+)\s*=\s*([^/\n]+)`
anchored at the head of `cs`, following Python's greedy matching with
backtracking of the `\s*` before the value: the value normally starts at
the first non-whitespace character, but when that character cannot start
the value the last non-newline whitespace character is consumed as the
value instead.  Returns the name, the stripped value and the rest. -/
def parseConstAt (cs : List Char) : Option (String × String × List Char) :=
  match cs with
  | 'c' :: 'o' :: 'n' :: 's' :: 't' :: rest =>
    let ws := rest.takeWhile isWs
    if ws.length = 0 then none else
    let r1 := rest.drop ws.length
    let w := r1.takeWhile isWordChar
    if w.length = 0 then none else
    let r3 := (r1.drop w.length).dropWhile isWs
    match r3 with
    | '=' :: r4 =>
      let vw := r4.takeWhile isWs
      let afterW := r4.drop vw.length
      match afterW with
      | c :: _ =>
        if c != '/' && c != '\n' then
          let v := afterW.takeWhile (fun ch => ch != '/' && ch != '\n')
          some (String.mk w, trimStr (String.mk v), afterW.drop v.length)
        else
          let nl := vw.reverse.takeWhile (fun ch => ch == '\n')
          if nl.length < vw.length then
            some (String.mk w, "", vw.drop (vw.length - nl.length) ++ afterW)
          else none
      | [] =>
        let nl := vw.reverse.takeWhile (fun ch => ch == '\n')
        if nl.length < vw.length then
          some (String.mk w, "", vw.drop (vw.length - nl.length))
        else none
    | _ => none
  | _ => none

/-- The scan of `re.findall` for constants, fuelled like the header
scan. -/
def constScanAux : Nat → List Char → List (String × String)
  | 0, _ => []
  | _ + 1, [] => []
  | fuel + 1, c :: rest =>
    match parseConstAt (c :: rest) with
    | some (name, v, r) => (name, v) :: constScanAux fuel r
    | none => constScanAux fuel rest

/-- All constant matches in source order. -/
def constPairs (content : List Char) : List (String × String) :=
  constScanAux (content.length + 1) content

/-- The constant store `self.constants` after `_extract_constants`
(lines 73-80). -/
def extractConstants (content : List Char) : List (String × String) :=
  (constPairs content).foldl (fun acc p => insertUpdate acc p.1 p.2) []

/-- The whole pipeline on one source text, as run by `main`: analyze the
source, generate the mapped files, then write the summary report computed
over the filesystem as it stands after those writes. -/
def runPipeline (sourceFile : String) (content : List Char) (fs : FS) : FS :=
  let funcs := extractFunctions content
  let consts := extractConstants content
  let mapping := getFileMapping funcs
  let fs1 := writeAll fs (goWrites sourceFile funcs mapping)
  writeFile fs1 summaryPath (summaryContent sourceFile funcs consts fs1)

/-- The usage lines printed on a wrong argument count (lines 289-290). -/
def usageMsg : List String :=
  ["用法: python3 refactor_telegram.py <源文件路径> <目标目录>",
   "示例: python3 refactor_telegram.py internal/api/handlers/telegram.go internal/api/handlers/telegram/"]

/-- Content of a generated file, written as the header followed by one
block per assigned name in list order (the shape the specification
describes). -/
def blocksSpec (funcs : List (String × FuncInfo)) : List String → String
  | [] => ""
  | n :: ns => funcBlock funcs n ++ blocksSpec funcs ns

/-- The command-line entry point `main` (lines 286-331): exit code, the
diagnostic lines relevant to the exit decision, and the resulting
filesystem.  `argv` includes the program name, `fileExists` models the
`os.path.exists` check and `content` the text read from the source
file. -/
def mainRun (argv : List String) (fileExists : String → Bool)
    (content : List Char) (fs : FS) : Nat × List String × FS :=
  if argv.length ≠ 3 then (1, usageMsg, fs)
  else
    let src := argv.getD 1 ""
    if fileExists src = false then (1, ["❌ 源文件不存在: " ++ src], fs)
    else (0, ["🚀 开始Telegram Handler重构...", "✅ 重构助手执行完成!"],
          runPipeline src content fs)

/-- The two-function example source of the specification's end-to-end
scenario: a command handler and a formatting utility. -/
def exampleSrc : String :=
  "func handleDownloadCommand() \x7b\n\treturn 1\n\x7d\n\nfunc formatMessage() \x7b\n\treturn 2\n\x7d\n"

/-- Looking up the key just written finds the written value. -/
theorem alookup_insertUpdate_self {α : Type} (l : List (String × α)) (k : String) (v : α) :
    alookup (insertUpdate l k v) k = some v := by
  induction l with
  | nil => simp [insertUpdate, alookup]
  | cons p t ih =>
    obtain ⟨k', v'⟩ := p
    by_cases h : k' = k
    · simp [insertUpdate, h, alookup]
    · simp [insertUpdate, h, alookup, ih]

/-- Writing one key leaves every other key's lookup unchanged. -/
theorem alookup_insertUpdate_ne {α : Type} (l : List (String × α)) (k k2 : String) (v : α)
    (h : k ≠ k2) : alookup (insertUpdate l k v) k2 = alookup l k2 := by
  induction l with
  | nil => simp [insertUpdate, alookup, h]
  | cons p t ih =>
    obtain ⟨k', v'⟩ := p
    by_cases h1 : k' = k
    · subst h1; simp [insertUpdate, alookup, h, ih]
    · simp [insertUpdate, h1, alookup, ih]

/-- Rewriting a key with the value it already has is the identity. -/
theorem insertUpdate_self {α : Type} (l : List (String × α)) (k : String) (v : α)
    (h : alookup l k = some v) : insertUpdate l k v = l := by
  induction l with
  | nil => simp [alookup] at h
  | cons p t ih =>
    obtain ⟨k', v'⟩ := p
    by_cases h1 : k' = k
    · subst h1
      simp [alookup] at h
      simp [insertUpdate, h]
    · simp [alookup, h1] at h
      simp [insertUpdate, h1, ih h]

/-- The keys after an update: unchanged for a present key, the new key
appended for an absent one. -/
theorem map_fst_insertUpdate {α : Type} (l : List (String × α)) (k : String) (v : α) :
    (insertUpdate l k v).map Prod.fst =
      if k ∈ l.map Prod.fst then l.map Prod.fst else l.map Prod.fst ++ [k] := by
  induction l with
  | nil => simp [insertUpdate]
  | cons p t ih =>
    obtain ⟨k', v'⟩ := p
    by_cases h : k' = k
    · subst h; simp [insertUpdate]
    · by_cases h2 : k ∈ t.map Prod.fst
      · simp [insertUpdate, h, ih, h2, Ne.symm h]
      · simp [insertUpdate, h, ih, h2, Ne.symm h]

/-- An entry of an updated list is an old entry or the written pair. -/
theorem mem_insertUpdate {α : Type} (l : List (String × α)) (k : String) (v : α)
    (p : String × α) (h : p ∈ insertUpdate l k v) : p ∈ l ∨ p = (k, v) := by
  induction l with
  | nil => simp [insertUpdate] at h; simp [h]
  | cons q t ih =>
    obtain ⟨k', v'⟩ := q
    by_cases h1 : k' = k
    · simp [insertUpdate, h1] at h
      rcases h with h | h
      · right; simp [h]
      · left; simp [h]
    · simp [insertUpdate, h1] at h
      rcases h with h | h
      · left; simp [h]
      · rcases ih h with h2 | h2
        · left; exact List.mem_cons_of_mem _ h2
        · right; exact h2

/-- Updating preserves distinctness of the keys. -/
theorem nodup_keys_insertUpdate {α : Type} (l : List (String × α)) (k : String) (v : α)
    (h : (l.map Prod.fst).Nodup) : ((insertUpdate l k v).map Prod.fst).Nodup := by
  rw [map_fst_insertUpdate]
  by_cases h2 : k ∈ l.map Prod.fst
  · simpa [h2] using h
  · simp [h2, List.nodup_append, h]

/-- An entry of a dict built by repeated updates comes from the seed or
from one of the written pairs. -/
theorem mem_foldl_insertUpdate {α : Type} (l : List (String × α)) :
    ∀ (acc : List (String × α)) (p : String × α),
      p ∈ l.foldl (fun a q => insertUpdate a q.1 q.2) acc → p ∈ acc ∨ p ∈ l := by
  induction l with
  | nil => intro acc p h; exact Or.inl h
  | cons q t ih =>
    intro acc p h
    rcases ih (insertUpdate acc q.1 q.2) p h with h1 | h1
    · rcases mem_insertUpdate acc q.1 q.2 p h1 with h2 | h2
      · exact Or.inl h2
      · right; rw [h2]; exact List.mem_cons_self _ _
    · right; right; exact h1

/-- Lookup in a dict built by repeated updates: the value of the last
written pair with that key, or the seed's value when the key was never
written. -/
theorem alookup_foldl_insertUpdate {α : Type} (l : List (String × α)) :
    ∀ (acc : List (String × α)) (k : String),
      alookup (l.foldl (fun a q => insertUpdate a q.1 q.2) acc) k =
        match (l.filter (fun q => q.1 == k)).getLast? with
        | some q => some q.2
        | none => alookup acc k := by
  induction l with
  | nil => intro acc k; simp
  | cons q t ih =>
    intro acc k
    by_cases hq : q.1 = k
    · rw [List.foldl_cons, ih]
      have hcons : ((q :: t).filter (fun r => r.1 == k)) =
          q :: t.filter (fun r => r.1 == k) := by
        simp [List.filter_cons, hq]
      cases hf : (t.filter (fun r => r.1 == k)).getLast? with
      | some r =>
        have hne : t.filter (fun r => r.1 == k) ≠ [] := by
          intro he; rw [he] at hf; simp at hf
        obtain ⟨x, xs, hx⟩ := List.exists_cons_of_ne_nil hne
        have : ((q :: t).filter (fun r => r.1 == k)).getLast? = some r := by
          rw [hcons, hx, List.getLast?_cons_cons, ← hx, hf]
        simp [hf, this]
      | none =>
        have hemp : t.filter (fun r => r.1 == k) = [] :=
          List.getLast?_eq_none_iff.1 hf
        have : ((q :: t).filter (fun r => r.1 == k)).getLast? = some q := by
          rw [hcons, hemp]; rfl
        rw [this]
        simp only [hf]
        rw [← hq]
        exact alookup_insertUpdate_self acc q.1 q.2
    · rw [List.foldl_cons, ih]
      have hsame : ((q :: t).filter (fun r => r.1 == k)) = t.filter (fun r => r.1 == k) := by
        simp [List.filter_cons, hq]
      rw [hsame]
      cases hf : (t.filter (fun r => r.1 == k)).getLast? with
      | some r => simp
      | none => simp [alookup_insertUpdate_ne _ _ _ _ hq]

/-- A dict built from the empty seed has distinct keys. -/
theorem nodup_keys_foldl_insertUpdate {α : Type} (l : List (String × α)) :
    ∀ (acc : List (String × α)), (acc.map Prod.fst).Nodup →
      ((l.foldl (fun a q => insertUpdate a q.1 q.2) acc).map Prod.fst).Nodup := by
  induction l with
  | nil => intro acc h; exact h
  | cons q t ih =>
    intro acc h
    exact ih (insertUpdate acc q.1 q.2) (nodup_keys_insertUpdate acc q.1 q.2 h)

/-- Under distinct keys a key occurs in at most one entry. -/
theorem length_filter_key_le_one {α : Type} (l : List (String × α)) (k : String)
    (h : (l.map Prod.fst).Nodup) : (l.filter (fun q => q.1 == k)).length ≤ 1 := by
  induction l with
  | nil => simp
  | cons q t ih =>
    simp only [List.map_cons, List.nodup_cons] at h
    by_cases hq : q.1 = k
    · have hemp : t.filter (fun r => r.1 == k) = [] := by
        rcases he : t.filter (fun r => r.1 == k) with _ | ⟨x, xs⟩
        · exact he
        · have hx : x ∈ t.filter (fun r => r.1 == k) := by rw [he]; simp
          rw [List.mem_filter] at hx
          have hmem : x.1 ∈ t.map Prod.fst := List.mem_map_of_mem Prod.fst hx.1
          have hk : x.1 = k := by simpa using hx.2
          rw [hk, ← hq] at hmem
          exact absurd hmem h.1
      simp [List.filter_cons, hq, hemp]
    · simp [List.filter_cons, hq]
      simpa using ih h.2

/-- Under distinct keys membership determines the lookup. -/
theorem alookup_eq_of_mem_nodup {α : Type} (l : List (String × α)) (k : String) (v : α)
    (hn : (l.map Prod.fst).Nodup) (h : (k, v) ∈ l) : alookup l k = some v := by
  induction l with
  | nil => simp at h
  | cons q t ih =>
    simp only [List.map_cons, List.nodup_cons] at hn
    rcases List.mem_cons.1 h with h1 | h1
    · rw [← h1]; simp [alookup]
    · have hk : k ∈ t.map Prod.fst := List.mem_map_of_mem Prod.fst h1
      have hq : q.1 ≠ k := by
        intro he; rw [he] at hn; exact hn.1 hk
      obtain ⟨k', v'⟩ := q
      simp only [alookup]
      rw [if_neg hq]
      exact ih hn.2 h1

/-- A successful lookup names an entry of the list. -/
theorem mem_of_alookup_eq_some {α : Type} (l : List (String × α)) (k : String) (v : α)
    (h : alookup l k = some v) : (k, v) ∈ l := by
  induction l with
  | nil => simp [alookup] at h
  | cons q t ih =>
    obtain ⟨k', v'⟩ := q
    by_cases h1 : k' = k
    · subst h1; simp [alookup] at h; simp [h]
    · simp [alookup, h1] at h
      exact List.mem_cons_of_mem _ (ih h)

/-- Rewriting files that already hold exactly the written content is the
identity on the filesystem. -/
theorem writeAll_id (l : List (String × String)) :
    ∀ fs : FS, (∀ pc ∈ l, alookup fs pc.1 = some pc.2) → writeAll fs l = fs := by
  induction l with
  | nil => intro fs _; rfl
  | cons pc t ih =>
    intro fs h
    have h1 : writeFile fs pc.1 pc.2 = fs :=
      insertUpdate_self fs pc.1 pc.2 (h pc (List.mem_cons_self _ _))
    show writeAll (writeFile fs pc.1 pc.2) t = fs
    rw [h1]
    exact ih fs (fun qc hq => h qc (List.mem_cons_of_mem _ hq))

/-- A batch of writes leaves paths outside the batch unchanged. -/
theorem alookup_writeAll_not_mem (l : List (String × String)) :
    ∀ (fs : FS) (k : String), k ∉ l.map Prod.fst →
      alookup (writeAll fs l) k = alookup fs k := by
  induction l with
  | nil => intro fs k _; rfl
  | cons pc t ih =>
    intro fs k h
    simp only [List.map_cons, List.mem_cons] at h
    push_neg at h
    show alookup (writeAll (writeFile fs pc.1 pc.2) t) k = alookup fs k
    rw [ih _ k h.2]
    exact alookup_insertUpdate_ne fs pc.1 k pc.2 (fun he => h.1 he.symm)

/-- After a batch of writes with distinct paths, each written path holds
its written content. -/
theorem alookup_writeAll_nodup_mem (l : List (String × String)) :
    ∀ (fs : FS) (p c : String), (l.map Prod.fst).Nodup → (p, c) ∈ l →
      alookup (writeAll fs l) p = some c := by
  induction l with
  | nil => intro fs p c _ h; simp at h
  | cons pc t ih =>
    intro fs p c hn h
    simp only [List.map_cons, List.nodup_cons] at hn
    rcases List.mem_cons.1 h with h1 | h1
    · have hpc : pc = (p, c) := h1.symm
      subst hpc
      show alookup (writeAll (writeFile fs p c) t) p = some c
      rw [alookup_writeAll_not_mem t _ p hn.1]
      exact alookup_insertUpdate_self fs p c
    · exact ih _ p c hn.2 h1

/-- Brace contribution of the opening brace. -/
theorem delta_lbrace : delta lbrace = 1 := by decide

/-- Brace contribution of the closing brace. -/
theorem delta_rbrace : delta rbrace = -1 := by decide

/-- Brace contribution of any other character. -/
theorem delta_other (c : Char) (h1 : c ≠ lbrace) (h2 : c ≠ rbrace) : delta c = 0 := by
  simp [delta, h1, h2]

/-- Depth of a list with its head split off. -/
theorem depthSum_cons (c : Char) (l : List Char) :
    depthSum (c :: l) = delta c + depthSum l := by
  simp [depthSum]

/-- The brace loop stops exactly at the first closing brace where the
running counter reaches zero, leaving the counter at zero and the
position on that closing brace. -/
theorem braceLoop_finds (suffix : List Char) : ∀ (pos : Nat) (count : Int) (k : Nat),
    k < suffix.length →
    suffix[k]? = some rbrace →
    count + depthSum (suffix.take (k + 1)) = 0 →
    (∀ m, m < k → ¬(suffix[m]? = some rbrace ∧ count + depthSum (suffix.take (m + 1)) = 0)) →
    braceLoopAux suffix pos count = (pos + k, 0) := by
  induction suffix with
  | nil => intro pos count k hk _ _ _; simp at hk
  | cons c rest ih =>
    intro pos count k hk hget hdep hmin
    cases k with
    | zero =>
      have hc : c = rbrace := by simpa using hget
      have hd : count + delta c = 0 := by
        simpa [depthSum_cons, depthSum] using hdep
      rw [hc, delta_rbrace] at hd
      have hcount : count - 1 = 0 := by omega
      have hne : c ≠ lbrace := by rw [hc]; decide
      simp only [braceLoopAux, if_neg hne, if_pos hc, if_pos hcount]
      exact Prod.ext (by omega) hcount
    | succ k' =>
      have hget' : rest[k']? = some rbrace := by simpa using hget
      have hk' : k' < rest.length := by
        have hlen : (c :: rest).length = rest.length + 1 := rfl
        omega
      have hdep' : (count + delta c) + depthSum (rest.take (k' + 1)) = 0 := by
        have : (c :: rest).take (k' + 1 + 1) = c :: rest.take (k' + 1) := rfl
        rw [this, depthSum_cons] at hdep
        omega
      have hmin' : ∀ m, m < k' →
          ¬(rest[m]? = some rbrace ∧ (count + delta c) + depthSum (rest.take (m + 1)) = 0) := by
        intro m hm hcontra
        apply hmin (m + 1) (by omega)
        constructor
        · simpa using hcontra.1
        · have : (c :: rest).take (m + 1 + 1) = c :: rest.take (m + 1) := rfl
          rw [this, depthSum_cons]
          omega
      by_cases hc1 : c = lbrace
      · simp only [braceLoopAux, if_pos hc1]
        rw [ih (pos + 1) (count + 1) k' hk' hget'
          (by rw [hc1, delta_lbrace] at hdep'; omega)
          (by intro m hm hcontra; refine hmin' m hm ⟨hcontra.1, ?_⟩
              rw [hc1, delta_lbrace]; omega)]
        exact Prod.ext (by omega) rfl
      · by_cases hc2 : c = rbrace
        · have hnz : ¬(count - 1 = 0) := by
            intro hz
            refine hmin 0 (Nat.succ_pos k') ⟨by simpa using hc2, ?_⟩
            have ht : (c :: rest).take (0 + 1) = [c] := rfl
            rw [ht, hc2]
            have hv : depthSum [rbrace] = -1 := by decide
            rw [hv]
            omega
          simp only [braceLoopAux, if_neg hc1, if_pos hc2, if_neg hnz]
          rw [ih (pos + 1) (count - 1) k' hk' hget'
            (by rw [hc2, delta_rbrace] at hdep'; omega)
            (by intro m hm hcontra; refine hmin' m hm ⟨hcontra.1, ?_⟩
                rw [hc2, delta_rbrace]; omega)]
          exact Prod.ext (by omega) rfl
        · simp only [braceLoopAux, if_neg hc1, if_neg hc2]
          rw [ih (pos + 1) count k' hk' hget'
            (by rw [delta_other c hc1 hc2] at hdep'; omega)
            (by intro m hm hcontra; refine hmin' m hm ⟨hcontra.1, ?_⟩
                rw [delta_other c hc1 hc2]; omega)]
          exact Prod.ext (by omega) rfl

/-- A trailing greedy `.*` matches any remainder. -/
theorem reToksMatch_dotStar_nil (cs : List Char) : reToksMatch [RTok.dotStar] cs = true := by
  simp only [reToksMatch, List.any_eq_true]
  refine ⟨0, by simp [List.mem_range], by simp [reToksMatch]⟩

/-- A pattern of the shape `lit.*` matches exactly the names starting
with the literal. -/
theorem reMatch_lit_dotStar (s name : String) :
    reMatch [RTok.lit s, RTok.dotStar] name = true ↔
      s.toList.isPrefixOf name.toList = true := by
  have hunfold : reMatch [RTok.lit s, RTok.dotStar] name =
      (s.toList.isPrefixOf name.toList &&
        reToksMatch [RTok.dotStar] (name.toList.drop s.toList.length)) := rfl
  rw [hunfold, reToksMatch_dotStar_nil, Bool.and_true]

/-- `find?` returns the element at the first index satisfying the
predicate. -/
theorem find?_eq_of_first {α : Type} (p : α → Bool) (l : List α) :
    ∀ (i : Nat) (hi : i < l.length), p (l.get ⟨i, hi⟩) = true →
      (∀ j (hj : j < i), p (l.get ⟨j, Nat.lt_trans hj hi⟩) = false) →
      l.find? p = some (l.get ⟨i, hi⟩) := by
  induction l with
  | nil => intro i hi; simp at hi
  | cons a t ih =>
    intro i hi hp hfirst
    cases i with
    | zero => exact List.find?_cons_of_pos _ hp
    | succ i' =>
      have h0 : p a = false := hfirst 0 (Nat.succ_pos i')
      rw [List.find?_cons_of_neg _ (by simp [h0])]
      have hi' : i' < t.length := by
        have : (a :: t).length = t.length + 1 := rfl
        omega
      have hp' : p (t.get ⟨i', hi'⟩) = true := hp
      have hfirst' : ∀ j (hj : j < i'), p (t.get ⟨j, Nat.lt_trans hj hi'⟩) = false := by
        intro j hj
        exact hfirst (j + 1) (by omega)
      exact ih i' hi' hp' hfirst'

/-- A prefix of the untouched list is a substring. -/
theorem isSubstring_of_isPrefixOf (n h : List Char) (hp : n.isPrefixOf h = true) :
    isSubstring n h = true := by
  cases h with
  | nil =>
    cases n with
    | nil => rfl
    | cons x xs => simp [List.isPrefixOf] at hp
  | cons c t => simp [isSubstring, hp]

/-- Lowercasing both sides preserves the boolean prefix relation. -/
theorem isPrefixOf_map (f : Char → Char) (a b : List Char) (h : a.isPrefixOf b = true) :
    (a.map f).isPrefixOf (b.map f) = true := by
  rw [List.isPrefixOf_iff_prefix] at h ⊢
  exact h.map f

/-- A literal that is already lowercase and starts the name occurs in the
lowercased name, i.e. the corresponding `in name.lower()` test of the
router succeeds. -/
theorem strContains_lower_of_startsWith (lit name : String)
    (hlow : lit.toList.map Char.toLower = lit.toList)
    (hp : lit.toList.isPrefixOf name.toList = true) :
    strContains (lowerStr name) lit = true := by
  have h1 : (lit.toList.map Char.toLower).isPrefixOf (name.toList.map Char.toLower) = true :=
    isPrefixOf_map Char.toLower _ _ hp
  rw [hlow] at h1
  exact isSubstring_of_isPrefixOf _ _ h1

/-- A name categorised "util" starts with one of the five util pattern
literals. -/
theorem categorize_util_prefix (name : String) (h : categorize name = "util") :
    "format".toList.isPrefixOf name.toList = true ∨
    "escape".toList.isPrefixOf name.toList = true ∨
    "split".toList.isPrefixOf name.toList = true ∨
    "encode".toList.isPrefixOf name.toList = true ∨
    "decode".toList.isPrefixOf name.toList = true := by
  unfold categorize at h
  cases hf : categories.find? (fun cp => cp.2.any (fun p => reMatch p name)) with
  | none => rw [hf] at h; exact absurd h (by decide)
  | some cp =>
    rw [hf] at h
    have hmem : cp ∈ categories := List.mem_of_find?_eq_some hf
    have hpred : cp.2.any (fun p => reMatch p name) = true := by
      have h2 := List.find?_some hf
      simpa using h2
    simp only [categories, List.mem_cons, List.not_mem_nil, or_false] at hmem
    rcases hmem with rfl | rfl | rfl | rfl | rfl | rfl | rfl | rfl | rfl
    · exact absurd h (by decide)
    · exact absurd h (by decide)
    · exact absurd h (by decide)
    · simp only [List.any_cons, List.any_nil, Bool.or_eq_true, Bool.or_false] at hpred
      rcases hpred with hp | hp | hp | hp | hp
      · exact Or.inl ((reMatch_lit_dotStar _ name).1 hp)
      · exact Or.inr (Or.inl ((reMatch_lit_dotStar _ name).1 hp))
      · exact Or.inr (Or.inr (Or.inl ((reMatch_lit_dotStar _ name).1 hp)))
      · exact Or.inr (Or.inr (Or.inr (Or.inl ((reMatch_lit_dotStar _ name).1 hp))))
      · exact Or.inr (Or.inr (Or.inr (Or.inr ((reMatch_lit_dotStar _ name).1 hp))))
    · exact absurd h (by decide)
    · exact absurd h (by decide)
    · exact absurd h (by decide)
    · exact absurd h (by decide)
    · exact absurd h (by decide)

/-- Appending into the routing table does not change its keys. -/
theorem map_fst_appendTo (m : Mapping) (k v : String) :
    (appendTo m k v).map Prod.fst = m.map Prod.fst := by
  unfold appendTo
  rw [List.map_map]
  apply List.map_congr_left
  intro e _
  by_cases h : e.1 = k <;> simp [h]

/-- Appending under one key leaves lookups of other keys unchanged. -/
theorem alookup_appendTo_ne (m : Mapping) (k k2 v : String) (h : k ≠ k2) :
    alookup (appendTo m k v) k2 = alookup m k2 := by
  induction m with
  | nil => rfl
  | cons e t ih =>
    obtain ⟨p, ns⟩ := e
    by_cases h1 : p = k
    · subst h1
      simp only [appendTo, List.map_cons, if_pos rfl]
      show alookup ((p, ns ++ [v]) :: appendTo t p v) k2 = alookup ((p, ns) :: t) k2
      simp only [alookup, if_neg h]
      exact ih
    · simp only [appendTo, List.map_cons, if_neg h1]
      show alookup ((p, ns) :: appendTo t k v) k2 = alookup ((p, ns) :: t) k2
      by_cases h2 : p = k2
      · simp [alookup, h2]
      · simp only [alookup, if_neg h2]
        exact ih

/-- An entry of the table after an append: an untouched entry, or the
appended-to entry extended by the new name. -/
theorem mem_appendTo (m : Mapping) (k v : String) (p : String) (ns : List String)
    (h : (p, ns) ∈ appendTo m k v) :
    (p, ns) ∈ m ∨ ∃ ns0, (p, ns0) ∈ m ∧ p = k ∧ ns = ns0 ++ [v] := by
  unfold appendTo at h
  rw [List.mem_map] at h
  obtain ⟨⟨q, qs⟩, he, heq⟩ := h
  by_cases h1 : q = k
  · rw [if_pos h1] at heq
    injection heq with hp hns
    right
    refine ⟨qs, ?_, ?_, hns.symm⟩
    · rw [← hp]; exact he
    · rw [← hp]; exact h1
  · rw [if_neg h1] at heq
    left
    rw [← heq]
    exact he

/-- The routing step either leaves the table untouched or appends the
name under one key, the latter only for the routed categories command,
callback and util. -/
theorem routeFunc_cases (m : Mapping) (name : String) (info : FuncInfo) :
    routeFunc m name info = m ∨
      ((info.category = "command" ∨ info.category = "callback" ∨ info.category = "util") ∧
        ∃ k, routeFunc m name info = appendTo m k name) := by
  by_cases h1 : info.category = "command"
  · right
    refine ⟨Or.inl h1, ?_⟩
    unfold routeFunc
    rw [if_pos h1]
    repeat' split
    all_goals exact ⟨_, rfl⟩
  · by_cases h2 : info.category = "callback"
    · right
      refine ⟨Or.inr (Or.inl h2), ?_⟩
      unfold routeFunc
      rw [if_neg h1, if_pos h2]
      repeat' split
      all_goals exact ⟨_, rfl⟩
    · by_cases h3 : info.category = "util"
      · unfold routeFunc
        rw [if_neg h1, if_neg h2, if_pos h3]
        repeat' split
        · exact Or.inr ⟨Or.inr (Or.inr h3), _, rfl⟩
        · exact Or.inr ⟨Or.inr (Or.inr h3), _, rfl⟩
        · exact Or.inr ⟨Or.inr (Or.inr h3), _, rfl⟩
        · exact Or.inr ⟨Or.inr (Or.inr h3), _, rfl⟩
        · exact Or.inl rfl
      · left
        unfold routeFunc
        rw [if_neg h1, if_neg h2, if_neg h3]

/-- Routing one function does not change the keys of the table. -/
theorem map_fst_routeFunc (m : Mapping) (name : String) (info : FuncInfo) :
    (routeFunc m name info).map Prod.fst = m.map Prod.fst := by
  rcases routeFunc_cases m name info with h | ⟨_, k, h⟩
  · rw [h]
  · rw [h, map_fst_appendTo]

/-- Routing the whole store does not change the keys of the table. -/
theorem map_fst_getFileMapping_aux (funcs : List (String × FuncInfo)) :
    ∀ m : Mapping,
      (funcs.foldl (fun m p => routeFunc m p.1 p.2) m).map Prod.fst = m.map Prod.fst := by
  induction funcs with
  | nil => intro m; rfl
  | cons q t ih =>
    intro m
    rw [List.foldl_cons, ih, map_fst_routeFunc]

/-- The mapping's keys are exactly the fifteen initial destinations. -/
theorem map_fst_getFileMapping (funcs : List (String × FuncInfo)) :
    (getFileMapping funcs).map Prod.fst = initialMapping.map Prod.fst :=
  map_fst_getFileMapping_aux funcs initialMapping

/-- The mapping's keys are distinct. -/
theorem nodup_keys_getFileMapping (funcs : List (String × FuncInfo)) :
    ((getFileMapping funcs).map Prod.fst).Nodup := by
  rw [map_fst_getFileMapping]
  decide

/-- Every name in a routing list comes from a stored function whose
category is one of command, callback and util. -/
theorem mapping_names_origin_aux (funcs : List (String × FuncInfo)) :
    ∀ (m : Mapping) (p : String) (ns : List String) (n : String),
      (p, ns) ∈ funcs.foldl (fun m q => routeFunc m q.1 q.2) m → n ∈ ns →
      (∃ i, (n, i) ∈ funcs ∧
        (i.category = "command" ∨ i.category = "callback" ∨ i.category = "util")) ∨
      (∃ ns0, (p, ns0) ∈ m ∧ n ∈ ns0) := by
  induction funcs with
  | nil => intro m p ns n hm hn; exact Or.inr ⟨ns, hm, hn⟩
  | cons q t ih =>
    intro m p ns n hm hn
    rcases ih (routeFunc m q.1 q.2) p ns n hm hn with h | ⟨ns0, hns0, hn0⟩
    · obtain ⟨i, hi, hcat⟩ := h
      exact Or.inl ⟨i, List.mem_cons_of_mem _ hi, hcat⟩
    · rcases routeFunc_cases m q.1 q.2 with he | ⟨hcat, k, he⟩
      · rw [he] at hns0
        exact Or.inr ⟨ns0, hns0, hn0⟩
      · rw [he] at hns0
        rcases mem_appendTo m k q.1 p ns0 hns0 with h2 | ⟨ns1, hns1, _, hext⟩
        · exact Or.inr ⟨ns0, h2, hn0⟩
        · rw [hext] at hn0
          rcases List.mem_append.1 hn0 with h3 | h3
          · exact Or.inr ⟨ns1, hns1, h3⟩
          · have : n = q.1 := by simpa using h3
            refine Or.inl ⟨q.2, ?_, hcat⟩
            rw [this]
            exact List.mem_cons_self _ _

/-- Every initial routing list is empty. -/
theorem initialMapping_values_empty : ∀ q ∈ initialMapping, q.2 = [] := by decide

/-- Every name in the final mapping comes from a stored function with a
routed category. -/
theorem mapping_names_origin (funcs : List (String × FuncInfo)) (p : String)
    (ns : List String) (n : String) (hm : (p, ns) ∈ getFileMapping funcs) (hn : n ∈ ns) :
    ∃ i, (n, i) ∈ funcs ∧
      (i.category = "command" ∨ i.category = "callback" ∨ i.category = "util") := by
  rcases mapping_names_origin_aux funcs initialMapping p ns n hm hn with h | ⟨ns0, hns0, hn0⟩
  · exact h
  · have : ns0 = [] := initialMapping_values_empty (p, ns0) hns0
    rw [this] at hn0
    simp at hn0

/-- One member satisfying the predicate makes `any` true. -/
theorem any_of_mem {α : Type} (l : List α) (p : α → Bool) (a : α) (ha : a ∈ l)
    (hp : p a = true) : l.any p = true :=
  List.any_eq_true.2 ⟨a, ha, hp⟩

/-- Routing a function whose stored category is the one computed from its
name never touches the validator destination: a util-categorised name
starts with one of the five util literals, so one of the three earlier
substring branches fires first. -/
theorem alookup_validator_routeFunc (m : Mapping) (name : String) (info : FuncInfo)
    (hcat : info.category = categorize name) :
    alookup (routeFunc m name info) "utils/validator.go" =
      alookup m "utils/validator.go" := by
  by_cases h1 : info.category = "command"
  · unfold routeFunc
    rw [if_pos h1]
    repeat' split
    all_goals exact alookup_appendTo_ne m _ _ _ (by decide)
  · by_cases h2 : info.category = "callback"
    · unfold routeFunc
      rw [if_neg h1, if_pos h2]
      repeat' split
      all_goals exact alookup_appendTo_ne m _ _ _ (by decide)
    · by_cases h3 : info.category = "util"
      · have hutil : categorize name = "util" := by rw [← hcat]; exact h3
        have hpre := categorize_util_prefix name hutil
        unfold routeFunc
        rw [if_neg h1, if_neg h2, if_pos h3]
        by_cases hb1 : (["format", "escape", "split"].any
            (fun w => strContains (lowerStr name) w)) = true
        · rw [if_pos hb1]
          exact alookup_appendTo_ne m _ _ _ (by decide)
        · rw [if_neg hb1]
          by_cases hb2 : (["send", "edit", "answer"].any
              (fun w => strContains (lowerStr name) w)) = true
          · rw [if_pos hb2]
            exact alookup_appendTo_ne m _ _ _ (by decide)
          · rw [if_neg hb2]
            by_cases hb3 : (["encode", "decode", "path"].any
                (fun w => strContains (lowerStr name) w)) = true
            · rw [if_pos hb3]
              exact alookup_appendTo_ne m _ _ _ (by decide)
            · exfalso
              rcases hpre with hp | hp | hp | hp | hp
              · exact hb1 (any_of_mem _ _ "format" (by simp)
                  (strContains_lower_of_startsWith _ name (by decide) hp))
              · exact hb1 (any_of_mem _ _ "escape" (by simp)
                  (strContains_lower_of_startsWith _ name (by decide) hp))
              · exact hb1 (any_of_mem _ _ "split" (by simp)
                  (strContains_lower_of_startsWith _ name (by decide) hp))
              · exact hb3 (any_of_mem _ _ "encode" (by simp)
                  (strContains_lower_of_startsWith _ name (by decide) hp))
              · exact hb3 (any_of_mem _ _ "decode" (by simp)
                  (strContains_lower_of_startsWith _ name (by decide) hp))
      · unfold routeFunc
        rw [if_neg h1, if_neg h2, if_neg h3]

/-- Every entry of the function store carries the category computed from
its own name. -/
theorem extractFunctions_category (content : List Char) (n : String) (i : FuncInfo)
    (h : (n, i) ∈ extractFunctions content) : i.category = categorize n := by
  have h1 := mem_foldl_insertUpdate (extractPairs content) [] (n, i) h
  rcases h1 with h2 | h2
  · simp at h2
  · unfold extractPairs at h2
    rw [List.mem_filterMap] at h2
    obtain ⟨hd, _, hsome⟩ := h2
    cases hcb : captureBody content hd.startPos (hd.endPos - 1) with
    | none => rw [hcb] at hsome; simp at hsome
    | some body =>
      rw [hcb] at hsome
      simp only [Option.some.injEq] at hsome
      injection hsome with hname hinfo
      rw [← hinfo, ← hname]

/-- The store's entries are also preserved through the dict fold intact,
so the store only holds successfully captured bodies. -/
theorem extractFunctions_success (content : List Char) (n : String) (i : FuncInfo)
    (h : (n, i) ∈ extractFunctions content) :
    ∃ hd : Header, hd ∈ findHeaders content ∧ hd.name = n ∧
      captureBody content hd.startPos (hd.endPos - 1) =
        some i.body.toList := by
  have h1 := mem_foldl_insertUpdate (extractPairs content) [] (n, i) h
  rcases h1 with h2 | h2
  · simp at h2
  · unfold extractPairs at h2
    rw [List.mem_filterMap] at h2
    obtain ⟨hd, hmem, hsome⟩ := h2
    cases hcb : captureBody content hd.startPos (hd.endPos - 1) with
    | none => rw [hcb] at hsome; simp at hsome
    | some body =>
      rw [hcb] at hsome
      simp only [Option.some.injEq] at hsome
      injection hsome with hname hinfo
      refine ⟨hd, hmem, hname, ?_⟩
      rw [← hinfo]
      exact hcb

/-- The writer's left fold of blocks equals the header followed by the
blocks in order. -/
theorem foldl_funcBlock_eq (funcs : List (String × FuncInfo)) (names : List String) :
    ∀ acc : String,
      names.foldl (fun a n => a ++ funcBlock funcs n) acc = acc ++ blocksSpec funcs names := by
  induction names with
  | nil => intro acc; simp [blocksSpec]
  | cons n ns ih =>
    intro acc
    rw [List.foldl_cons, ih, blocksSpec, ← String.append_assoc]

/-- `genFileContent` in specification shape. -/
theorem genFileContent_eq (src : String) (funcs : List (String × FuncInfo))
    (path : String) (names : List String) :
    genFileContent src funcs path names = fileHeader path src ++ blocksSpec funcs names :=
  foldl_funcBlock_eq funcs names (fileHeader path src)

/-- A generated file comes from a non-empty mapping entry and holds the
generated content for that entry. -/
theorem mem_goWrites (src : String) (funcs : List (String × FuncInfo)) (mapping : Mapping)
    (p c : String) (h : (p, c) ∈ goWrites src funcs mapping) :
    ∃ ns, (p, ns) ∈ mapping ∧ ns ≠ [] ∧ c = genFileContent src funcs p ns := by
  unfold goWrites at h
  rw [List.mem_filterMap] at h
  obtain ⟨⟨q, ns⟩, hmem, hsome⟩ := h
  unfold generateFile at hsome
  by_cases hemp : ns.isEmpty = true
  · rw [if_pos hemp] at hsome; simp at hsome
  · rw [if_neg hemp] at hsome
    simp only [Option.some.injEq] at hsome
    injection hsome with hq hc
    subst hq
    refine ⟨ns, hmem, ?_, hc.symm⟩
    intro he; rw [he] at hemp; exact hemp rfl

/-- A non-empty mapping entry produces its generated file. -/
theorem goWrites_of_mem (src : String) (funcs : List (String × FuncInfo)) (mapping : Mapping)
    (p : String) (ns : List String) (hmem : (p, ns) ∈ mapping) (hne : ns ≠ []) :
    (p, genFileContent src funcs p ns) ∈ goWrites src funcs mapping := by
  unfold goWrites
  rw [List.mem_filterMap]
  refine ⟨(p, ns), hmem, ?_⟩
  unfold generateFile
  rw [if_neg (by simpa using hne)]

/-- The generated files' paths form a sublist of the mapping's keys. -/
theorem map_fst_goWrites_sublist (src : String) (funcs : List (String × FuncInfo)) :
    ∀ mapping : Mapping,
      List.Sublist ((goWrites src funcs mapping).map Prod.fst) (mapping.map Prod.fst) := by
  intro mapping
  induction mapping with
  | nil => simp [goWrites]
  | cons e t ih =>
    show List.Sublist ((List.filterMap _ (e :: t)).map Prod.fst) _
    rw [List.filterMap_cons]
    cases hg : generateFile src funcs e.1 e.2 with
    | none =>
      exact List.Sublist.cons e.1 ih
    | some pc =>
      have hfst : pc.1 = e.1 := by
        unfold generateFile at hg
        by_cases hemp : e.2.isEmpty = true
        · rw [if_pos hemp] at hg; simp at hg
        · rw [if_neg hemp] at hg
          simp only [Option.some.injEq] at hg
          rw [← hg]
      rw [List.map_cons, hfst]
      exact List.Sublist.cons₂ e.1 ih

/-- The generated files have distinct paths. -/
theorem nodup_keys_goWrites (src : String) (funcs : List (String × FuncInfo)) :
    ((goWrites src funcs (getFileMapping funcs)).map Prod.fst).Nodup :=
  (nodup_keys_getFileMapping funcs).sublist
    (map_fst_goWrites_sublist src funcs (getFileMapping funcs))

/-- Every generated path is one of the fifteen mapping keys. -/
theorem goWrites_key_mem_initial (src : String) (funcs : List (String × FuncInfo))
    (p c : String) (h : (p, c) ∈ goWrites src funcs (getFileMapping funcs)) :
    p ∈ initialMapping.map Prod.fst := by
  obtain ⟨ns, hmem, _, _⟩ := mem_goWrites src funcs _ p c h
  have : p ∈ (getFileMapping funcs).map Prod.fst := List.mem_map_of_mem Prod.fst hmem
  rw [map_fst_getFileMapping] at this
  exact this

/-- No generated path is the summary path. -/
theorem goWrites_key_ne_summary (src : String) (funcs : List (String × FuncInfo))
    (p c : String) (h : (p, c) ∈ goWrites src funcs (getFileMapping funcs)) :
    p ≠ summaryPath := by
  have hmem := goWrites_key_mem_initial src funcs p c h
  have hall : ∀ q ∈ initialMapping.map Prod.fst, q ≠ summaryPath := by decide
  exact hall p hmem

/-- Writing a file that no directory globs leaves every directory's glob
unchanged. -/
theorem globGo_writeFile_none (d : String) (fs : FS) (k v : String)
    (hk : goChild d k = none) : globGo d (writeFile fs k v) = globGo d fs := by
  unfold globGo writeFile
  rw [map_fst_insertUpdate]
  by_cases h : k ∈ fs.map Prod.fst
  · rw [if_pos h]
  · rw [if_neg h, List.filterMap_append]
    simp [hk]

/-- The report's directory tree ignores the summary file itself. -/
theorem treeSection_writeFile_summary (fs : FS) (s : String) :
    treeSection (writeFile fs summaryPath s) = treeSection fs := by
  unfold treeSection
  congr 1
  apply List.map_congr_left
  intro d hd
  have hall : ∀ d2 ∈ dirsList, goChild d2 summaryPath = none := by decide
  rw [globGo_writeFile_none d fs summaryPath s (hall d hd)]

/-- The report's content ignores a previously written summary file. -/
theorem summaryContent_writeFile_summary (src : String) (funcs : List (String × FuncInfo))
    (consts : List (String × String)) (fs : FS) (s : String) :
    summaryContent src funcs consts (writeFile fs summaryPath s) =
      summaryContent src funcs consts fs := by
  unfold summaryContent
  rw [treeSection_writeFile_summary]

/-- Writing one path leaves other paths' contents unchanged. -/
theorem alookup_writeFile_ne (fs : FS) (k k2 v : String) (h : k ≠ k2) :
    alookup (writeFile fs k v) k2 = alookup fs k2 :=
  alookup_insertUpdate_ne fs k k2 v h

/-- Reading back the path just written gives the written content. -/
theorem alookup_writeFile_self (fs : FS) (k v : String) :
    alookup (writeFile fs k v) k = some v :=
  alookup_insertUpdate_self fs k v

/-- Overwriting a file with its current content is the identity. -/
theorem writeFile_self (fs : FS) (k v : String) (h : alookup fs k = some v) :
    writeFile fs k v = fs :=
  insertUpdate_self fs k v h

/-- Re-running the batch of generated-file writes on top of a finished
pipeline run changes nothing. -/
theorem writeAll_runPipeline_id (src : String) (content : List Char) (fs : FS) :
    writeAll (runPipeline src content fs)
      (goWrites src (extractFunctions content) (getFileMapping (extractFunctions content))) =
      runPipeline src content fs := by
  apply writeAll_id
  intro pc hpc
  have hne : pc.1 ≠ summaryPath :=
    goWrites_key_ne_summary src (extractFunctions content) pc.1 pc.2 hpc
  show alookup (writeFile
      (writeAll fs (goWrites src (extractFunctions content)
        (getFileMapping (extractFunctions content))))
      summaryPath
      (summaryContent src (extractFunctions content) (extractConstants content)
        (writeAll fs (goWrites src (extractFunctions content)
          (getFileMapping (extractFunctions content))))))
      pc.1 = some pc.2
  rw [alookup_writeFile_ne _ _ _ _ (Ne.symm hne)]
  exact alookup_writeAll_nodup_mem _ fs pc.1 pc.2
    (nodup_keys_goWrites src (extractFunctions content)) hpc

/-- The classifier's result always lies in the closed category set. -/
theorem categorize_closed (name : String) : categorize name ∈ allCategories := by
  unfold categorize
  cases hf : categories.find? (fun cp => cp.2.any (fun p => reMatch p name)) with
  | none => decide
  | some cp =>
    have hmem : cp ∈ categories := List.mem_of_find?_eq_some hf
    simp only [categories, List.mem_cons, List.not_mem_nil, or_false] at hmem
    rcases hmem with rfl | rfl | rfl | rfl | rfl | rfl | rfl | rfl | rfl <;> decide

/-- C2: classification is a total deterministic function into the closed
ten-category set: every name gets exactly one category (the function is
single-valued by construction, hence deterministic); a name none of whose
patterns match anywhere gets "other"; and the first category in table
order with a prefix-anchored pattern match wins. -/
theorem categorize_total_first_match (name : String) :
    categorize name ∈ allCategories ∧
    ((∀ cp ∈ categories, ∀ p ∈ cp.2, reMatch p name = false) → categorize name = "other") ∧
    (∀ (i : Nat) (hi : i < categories.length),
      (categories.get ⟨i, hi⟩).2.any (fun p => reMatch p name) = true →
      (∀ (j : Nat) (hj : j < i),
        (categories.get ⟨j, Nat.lt_trans hj hi⟩).2.any (fun p => reMatch p name) = false) →
      categorize name = (categories.get ⟨i, hi⟩).1) := by
  refine ⟨categorize_closed name, ?_, ?_⟩
  · intro hall
    unfold categorize
    have hnone : categories.find? (fun cp => cp.2.any (fun p => reMatch p name)) = none := by
      rw [List.find?_eq_none]
      intro cp hcp hc
      rw [List.any_eq_true] at hc
      obtain ⟨p, hp, hmatch⟩ := hc
      rw [hall cp hcp p hp] at hmatch
      cases hmatch
    rw [hnone]
  · intro i hi hp hfirst
    unfold categorize
    rw [find?_eq_of_first (fun cp => cp.2.any (fun p => reMatch p name)) categories i hi hp hfirst]

/-- Witness for C2: the name renderMenu matches the render patterns at
table index 2 and no earlier category, so it is classified render. -/
theorem categorize_total_first_match_witness : categorize "renderMenu" = "render" :=
  (categorize_total_first_match "renderMenu").2.2 2 (by decide) (by decide) (by decide)

/-- C3: a function whose stored category has no routing rule (anything
but command, callback, util — in particular render, message, file, task,
system, manual) is assigned to no destination of the file mapping and to
no generated file. -/
theorem unrouted_categories_omitted (funcs : List (String × FuncInfo)) (name : String)
    (h : ∀ q ∈ funcs, q.1 = name →
      ¬(q.2.category = "command" ∨ q.2.category = "callback" ∨ q.2.category = "util")) :
    (∀ p ns, (p, ns) ∈ getFileMapping funcs → name ∉ ns) ∧
    (∀ src p c, (p, c) ∈ goWrites src funcs (getFileMapping funcs) →
      ∃ ns, (p, ns) ∈ getFileMapping funcs ∧ name ∉ ns ∧
        c = genFileContent src funcs p ns) := by
  have hmain : ∀ p ns, (p, ns) ∈ getFileMapping funcs → name ∉ ns := by
    intro p ns hm hn
    obtain ⟨i, hi, hcat⟩ := mapping_names_origin funcs p ns name hm hn
    exact h (name, i) hi rfl hcat
  refine ⟨hmain, ?_⟩
  intro src p c hw
  obtain ⟨ns, hm, _, hc⟩ := mem_goWrites src funcs _ p c hw
  exact ⟨ns, hm, hmain p ns hm, hc⟩

/-- Witness for C3: a source defining only renderMenu, classified render,
yields a mapping whose commands/base.go list — like every other — does
not contain renderMenu. -/
theorem unrouted_categories_omitted_witness :
    "renderMenu" ∉ ([] : List String) :=
  (unrouted_categories_omitted
    (extractFunctions ("func renderMenu() \x7b\x7d".toList)) "renderMenu" (by decide)).1
    "commands/base.go" [] (by decide)

/-- C10: no input ever routes a function to utils/validator.go — every
util-categorised name starts with format, escape, split, encode or
decode, so the formatter, message-sender or encoder branch captures it
first — and hence that file is never generated. -/
theorem validator_never_written (content : List Char) (src : String) :
    alookup (getFileMapping (extractFunctions content)) "utils/validator.go" = some [] ∧
    ∀ c, ("utils/validator.go", c) ∉
      goWrites src (extractFunctions content) (getFileMapping (extractFunctions content)) := by
  have haux : ∀ (funcs : List (String × FuncInfo)),
      (∀ q ∈ funcs, q.2.category = categorize q.1) →
      ∀ m : Mapping, alookup m "utils/validator.go" = some [] →
      alookup (funcs.foldl (fun m p => routeFunc m p.1 p.2) m) "utils/validator.go" =
        some [] := by
    intro funcs
    induction funcs with
    | nil => intro _ m hm; exact hm
    | cons q t ih =>
      intro hq m hm
      rw [List.foldl_cons]
      apply ih (fun r hr => hq r (List.mem_cons_of_mem _ hr))
      rw [alookup_validator_routeFunc m q.1 q.2 (hq q (List.mem_cons_self _ _))]
      exact hm
  have hlook : alookup (getFileMapping (extractFunctions content)) "utils/validator.go" =
      some [] := by
    apply haux
    · intro q hq
      exact extractFunctions_category content q.1 q.2 hq
    · decide
  refine ⟨hlook, ?_⟩
  intro c hc
  obtain ⟨ns, hm, hne, _⟩ := mem_goWrites src _ _ _ c hc
  have h2 := alookup_eq_of_mem_nodup _ "utils/validator.go" ns
    (nodup_keys_getFileMapping (extractFunctions content)) hm
  rw [hlook] at h2
  have : ns = [] := by
    have := Option.some.inj h2
    exact this.symm
  exact hne this

/-- C4: when a function name is defined more than once, the store keeps
exactly one entry for that name, holding the body of the last occurrence
in source order (last write wins). -/
theorem duplicate_name_last_wins (content : List Char) (name : String)
    (hdup : 2 ≤ ((extractPairs content).filter (fun q => q.1 == name)).length) :
    ((extractFunctions content).filter (fun q => q.1 == name)).length = 1 ∧
    alookup (extractFunctions content) name =
      ((extractPairs content).filter (fun q => q.1 == name)).getLast?.map Prod.snd := by
  have hlook : alookup (extractFunctions content) name =
      ((extractPairs content).filter (fun q => q.1 == name)).getLast?.map Prod.snd := by
    show alookup ((extractPairs content).foldl (fun a p => insertUpdate a p.1 p.2) []) name = _
    rw [alookup_foldl_insertUpdate]
    cases hl : ((extractPairs content).filter (fun q => q.1 == name)).getLast? with
    | none => rfl
    | some q => rfl
  refine ⟨?_, hlook⟩
  have hne : (extractPairs content).filter (fun q => q.1 == name) ≠ [] := by
    intro he; rw [he] at hdup; simp at hdup
  have hsome : ∃ v, alookup (extractFunctions content) name = some v := by
    rw [hlook]
    cases hgl : ((extractPairs content).filter (fun q => q.1 == name)).getLast? with
    | none => exact absurd (List.getLast?_eq_none_iff.1 hgl) hne
    | some q => exact ⟨q.2, rfl⟩
  obtain ⟨v, hv⟩ := hsome
  have hmem := mem_of_alookup_eq_some _ _ _ hv
  have hfil : (name, v) ∈ (extractFunctions content).filter (fun q => q.1 == name) :=
    List.mem_filter.2 ⟨hmem, by simp⟩
  have hge : 0 < ((extractFunctions content).filter (fun q => q.1 == name)).length :=
    List.length_pos.2 (List.ne_nil_of_mem hfil)
  have hle : ((extractFunctions content).filter (fun q => q.1 == name)).length ≤ 1 :=
    length_filter_key_le_one _ name
      (nodup_keys_foldl_insertUpdate (extractPairs content) [] (by simp))
  omega

/-- Witness for C4: a source defining f twice retains one entry whose
body is the second definition's body. -/
theorem duplicate_name_last_wins_witness :
    2 ≤ ((extractPairs ("func f() \x7b a \x7d func f() \x7b b \x7d".toList)).filter
      (fun q => q.1 == "f")).length ∧
    ((extractFunctions ("func f() \x7b a \x7d func f() \x7b b \x7d".toList)).filter
      (fun q => q.1 == "f")).length = 1 :=
  ⟨by decide,
   (duplicate_name_last_wins ("func f() \x7b a \x7d func f() \x7b b \x7d".toList) "f"
     (by decide)).1⟩

/-- C5: when the brace scan for a located header runs off the end of the
text without the counter returning to zero (and every other header of the
same name does too), nothing is captured for it, the name is absent from
the function store and from every routing list, and — the embedding being
a total function — no error is raised. -/
theorem unbalanced_function_dropped (content : List Char) (name : String)
    (_hex : ∃ hd ∈ findHeaders content, hd.name = name)
    (hfail : ∀ hd ∈ findHeaders content, hd.name = name →
      (braceLoopAux (content.drop (hd.endPos - 1)) (hd.endPos - 1) 0).2 ≠ 0) :
    (∀ hd ∈ findHeaders content, hd.name = name →
      captureBody content hd.startPos (hd.endPos - 1) = none) ∧
    (∀ info : FuncInfo, (name, info) ∉ extractFunctions content) ∧
    (∀ p ns, (p, ns) ∈ getFileMapping (extractFunctions content) → name ∉ ns) := by
  have hcap : ∀ hd ∈ findHeaders content, hd.name = name →
      captureBody content hd.startPos (hd.endPos - 1) = none := by
    intro hd hhd hn
    unfold captureBody
    rw [if_neg (hfail hd hhd hn)]
  have hstore : ∀ info : FuncInfo, (name, info) ∉ extractFunctions content := by
    intro info hmem
    obtain ⟨hd, hhd, hn, hcb⟩ := extractFunctions_success content name info hmem
    rw [hcap hd hhd hn] at hcb
    cases hcb
  refine ⟨hcap, hstore, ?_⟩
  intro p ns hm hn
  obtain ⟨i, hi, _⟩ := mapping_names_origin _ p ns name hm hn
  exact hstore i hi

/-- Witness for C5: a source whose single function never closes its brace
is found by the header scan but extracted nowhere. -/
theorem unbalanced_function_dropped_witness :
    ("f", (⟨"", "x", "other"⟩ : FuncInfo)) ∉ extractFunctions ("func f() \x7b".toList) :=
  (unbalanced_function_dropped ("func f() \x7b".toList) "f"
    (by decide) (by decide)).2.1 ⟨"", "x", "other"⟩

/-- C7: the command line interface exits with code 1 and the usage lines
when the argument count differs from two positionals, with code 1 and a
file-not-found line when the source path does not exist, and with code 0
after running the pipeline otherwise. -/
theorem cli_exit_codes (argv : List String) (fileExists : String → Bool)
    (content : List Char) (fs : FS) :
    (argv.length ≠ 3 →
      (mainRun argv fileExists content fs).1 = 1 ∧
      (mainRun argv fileExists content fs).2.1 = usageMsg) ∧
    (argv.length = 3 → fileExists (argv.getD 1 "") = false →
      (mainRun argv fileExists content fs).1 = 1 ∧
      (mainRun argv fileExists content fs).2.1 =
        ["❌ 源文件不存在: " ++ argv.getD 1 ""]) ∧
    (argv.length = 3 → fileExists (argv.getD 1 "") = true →
      (mainRun argv fileExists content fs).1 = 0 ∧
      (mainRun argv fileExists content fs).2.2 =
        runPipeline (argv.getD 1 "") content fs) := by
  refine ⟨?_, ?_, ?_⟩
  · intro h
    unfold mainRun
    rw [if_pos h]
    exact ⟨rfl, rfl⟩
  · intro h1 h2
    unfold mainRun
    rw [if_neg (not_not_intro h1), if_pos h2]
    exact ⟨rfl, rfl⟩
  · intro h1 h2
    unfold mainRun
    rw [if_neg (not_not_intro h1), if_neg (by rw [h2]; simp)]
    exact ⟨rfl, rfl⟩

/-- Witness for C7: a wrong argument count exits 1 with the usage text, a
missing file exits 1, and an existing file exits 0. -/
theorem cli_exit_codes_witness :
    (mainRun ["prog"] (fun _ => true) [] []).1 = 1 ∧
    (mainRun ["prog", "a.go", "out"] (fun _ => false) [] []).1 = 1 ∧
    (mainRun ["prog", "a.go", "out"] (fun _ => true) [] []).1 = 0 :=
  ⟨((cli_exit_codes ["prog"] (fun _ => true) [] []).1 (by decide)).1,
   ((cli_exit_codes ["prog", "a.go", "out"] (fun _ => false) [] []).2.1 rfl rfl).1,
   ((cli_exit_codes ["prog", "a.go", "out"] (fun _ => true) [] []).2.2 rfl rfl).1⟩

/-- Depth of a concatenation. -/
theorem depthSum_append (a b : List Char) :
    depthSum (a ++ b) = depthSum a + depthSum b := by
  simp [depthSum]

/-- C8: a file is generated only for destinations with a non-empty name
list, and its content is the package line derived from the first path
segment, the provenance comment naming the source file, the empty import
block, then the assigned functions' provenance-commented bodies in list
order. -/
theorem writer_file_structure (src : String) (funcs : List (String × FuncInfo))
    (path : String) (names : List String)
    (hmem : (path, names) ∈ getFileMapping funcs) :
    (names = [] → ∀ c, (path, c) ∉ goWrites src funcs (getFileMapping funcs)) ∧
    (names ≠ [] →
      (path, "package " ++ firstSegment path ++
        "\n\n// 此文件由重构脚本自动生成\n// 源文件: " ++ src ++
        "\n\nimport (\n\t// TODO: 添加必要的导入\n)\n\n" ++ blocksSpec funcs names) ∈
        goWrites src funcs (getFileMapping funcs)) := by
  constructor
  · intro hemp c hc
    obtain ⟨ns, hm2, hne, _⟩ := mem_goWrites src funcs _ path c hc
    have h1 := alookup_eq_of_mem_nodup _ path ns (nodup_keys_getFileMapping funcs) hm2
    have h2 := alookup_eq_of_mem_nodup _ path names (nodup_keys_getFileMapping funcs) hmem
    rw [h1] at h2
    have : ns = names := Option.some.inj h2
    rw [this, hemp] at hne
    exact hne rfl
  · intro hne
    have hw := goWrites_of_mem src funcs _ path names hmem hne
    rw [genFileContent_eq] at hw
    exact hw

/-- Witness for C8: on the two-function example the command destination's
list is non-empty and produces its generated file. -/
theorem writer_file_structure_witness :
    ("commands/download.go", "package " ++
      firstSegment "commands/download.go" ++
      "\n\n// 此文件由重构脚本自动生成\n// 源文件: " ++ "telegram.go" ++
      "\n\nimport (\n\t// TODO: 添加必要的导入\n)\n\n" ++
      blocksSpec (extractFunctions exampleSrc.toList) ["handleDownloadCommand"]) ∈
      goWrites "telegram.go" (extractFunctions exampleSrc.toList)
        (getFileMapping (extractFunctions exampleSrc.toList)) :=
  (writer_file_structure "telegram.go" (extractFunctions exampleSrc.toList)
    "commands/download.go" ["handleDownloadCommand"] (by decide)).2 (by decide)

/-- C1: for a located function header whose opening brace has a matching
closing brace — the brace depth of the span is zero at some offset k and
strictly positive before it — the extractor captures exactly the slice
from the start of the header through that matching closing brace. -/
theorem extractor_balanced_capture (content : List Char) (hd : Header) (k : Nat)
    (_hmem : hd ∈ findHeaders content)
    (hbrace : content[hd.endPos - 1]? = some lbrace)
    (hk : k < (content.drop (hd.endPos - 1)).length)
    (hbal : depthSum ((content.drop (hd.endPos - 1)).take (k + 1)) = 0)
    (hpos : ∀ m, m < k → 0 < depthSum ((content.drop (hd.endPos - 1)).take (m + 1))) :
    (content.drop (hd.endPos - 1))[k]? = some rbrace ∧
    captureBody content hd.startPos (hd.endPos - 1) =
      some ((content.take (hd.endPos - 1 + k + 1)).drop hd.startPos) := by
  have hhead : (content.drop (hd.endPos - 1))[0]? = some lbrace := by
    rw [List.getElem?_drop]
    simpa using hbrace
  have hclose : (content.drop (hd.endPos - 1))[k]? = some rbrace := by
    cases k with
    | zero =>
      exfalso
      have h1 : (content.drop (hd.endPos - 1)).take (0 + 1) = [lbrace] := by
        cases hcs : content.drop (hd.endPos - 1) with
        | nil => rw [hcs] at hhead; cases hhead
        | cons c rest =>
          rw [hcs] at hhead
          have hc : c = lbrace := by simpa using hhead
          rw [hc]
          rfl
      rw [h1] at hbal
      rw [show depthSum [lbrace] = 1 from by decide] at hbal
      exact absurd hbal (by decide)
    | succ k' =>
      obtain ⟨c, hc⟩ : ∃ c, (content.drop (hd.endPos - 1))[k' + 1]? = some c :=
        ⟨_, List.getElem?_eq_getElem hk⟩
      rw [List.take_succ, hc] at hbal
      simp only [Option.toList_some] at hbal
      rw [depthSum_append] at hbal
      have hds : depthSum [c] = delta c := by simp [depthSum]
      rw [hds] at hbal
      have hpos' := hpos k' (Nat.lt_succ_self k')
      have hcval : c = rbrace := by
        by_cases e1 : c = lbrace
        · rw [e1, delta_lbrace] at hbal
          omega
        · by_cases e2 : c = rbrace
          · exact e2
          · rw [delta_other c e1 e2] at hbal
            omega
      rw [hc, hcval]
  have hmin : ∀ m, m < k →
      ¬((content.drop (hd.endPos - 1))[m]? = some rbrace ∧
        (0 : Int) + depthSum ((content.drop (hd.endPos - 1)).take (m + 1)) = 0) := by
    intro m hm hcon
    obtain ⟨_, h2⟩ := hcon
    have h3 := hpos m hm
    omega
  have hrun := braceLoop_finds (content.drop (hd.endPos - 1)) (hd.endPos - 1) 0 k hk hclose
    (by omega) hmin
  refine ⟨hclose, ?_⟩
  unfold captureBody
  rw [hrun]
  simp

/-- Witness for C1: a header with a nested block; the scan stops on the
outer closing brace and captures the whole definition. -/
theorem extractor_balanced_capture_witness :
    ("func f() \x7b \x7b \x7d \x7d".toList.drop 9)[6]? = some rbrace ∧
    captureBody ("func f() \x7b \x7b \x7d \x7d".toList) 0 9 =
      some ((("func f() \x7b \x7b \x7d \x7d".toList).take 16).drop 0) :=
  extractor_balanced_capture ("func f() \x7b \x7b \x7d \x7d".toList)
    ⟨0, "", "f", 10⟩ 6 (by decide) (by decide) (by decide) (by decide) (by decide)

/-- C9: the pipeline is idempotent on the filesystem — a second run on
identical input overwrites every file written by the first run with
byte-identical content, leaving the filesystem unchanged. -/
theorem pipeline_idempotent (src : String) (content : List Char) (fs : FS) :
    runPipeline src content (runPipeline src content fs) = runPipeline src content fs := by
  have hid := writeAll_runPipeline_id src content fs
  show writeFile
      (writeAll (runPipeline src content fs)
        (goWrites src (extractFunctions content) (getFileMapping (extractFunctions content))))
      summaryPath
      (summaryContent src (extractFunctions content) (extractConstants content)
        (writeAll (runPipeline src content fs)
          (goWrites src (extractFunctions content)
            (getFileMapping (extractFunctions content)))))
      = runPipeline src content fs
  rw [hid]
  show writeFile (runPipeline src content fs) summaryPath
      (summaryContent src (extractFunctions content) (extractConstants content)
        (writeFile
          (writeAll fs (goWrites src (extractFunctions content)
            (getFileMapping (extractFunctions content))))
          summaryPath
          (summaryContent src (extractFunctions content) (extractConstants content)
            (writeAll fs (goWrites src (extractFunctions content)
              (getFileMapping (extractFunctions content)))))))
      = runPipeline src content fs
  rw [summaryContent_writeFile_summary]
  apply writeFile_self
  show alookup (writeFile
      (writeAll fs (goWrites src (extractFunctions content)
        (getFileMapping (extractFunctions content))))
      summaryPath
      (summaryContent src (extractFunctions content) (extractConstants content)
        (writeAll fs (goWrites src (extractFunctions content)
          (getFileMapping (extractFunctions content))))))
      summaryPath = some (summaryContent src (extractFunctions content)
        (extractConstants content)
        (writeAll fs (goWrites src (extractFunctions content)
          (getFileMapping (extractFunctions content)))))
  exact alookup_writeFile_self _ _ _

/-- Witness for C9: a concrete double run on the example source equals
the single run. -/
theorem pipeline_idempotent_witness :
    runPipeline "telegram.go" exampleSrc.toList
      (runPipeline "telegram.go" exampleSrc.toList []) =
      runPipeline "telegram.go" exampleSrc.toList [] :=
  pipeline_idempotent "telegram.go" exampleSrc.toList []

/-- Witness for C10: on the example source the validator destination's
list is empty. -/
theorem validator_never_written_witness :
    alookup (getFileMapping (extractFunctions exampleSrc.toList)) "utils/validator.go" =
      some [] :=
  (validator_never_written exampleSrc.toList "telegram.go").1

/-- C6: on the minimal two-function source, handleDownloadCommand is
routed to commands/download.go and formatMessage to utils/formatter.go,
the generated files contain the respective bodies, and the summary's
per-category table is exactly command: 1 and util: 1. -/
theorem end_to_end_example :
    alookup (getFileMapping (extractFunctions exampleSrc.toList)) "commands/download.go" =
      some ["handleDownloadCommand"] ∧
    alookup (getFileMapping (extractFunctions exampleSrc.toList)) "utils/formatter.go" =
      some ["formatMessage"] ∧
    sortedCounts (extractFunctions exampleSrc.toList) = [("command", 1), ("util", 1)] ∧
    strContains
      ((alookup (runPipeline "telegram.go" exampleSrc.toList []) "commands/download.go").getD "")
      "func handleDownloadCommand() \x7b\n\treturn 1\n\x7d" = true ∧
    strContains
      ((alookup (runPipeline "telegram.go" exampleSrc.toList []) "utils/formatter.go").getD "")
      "func formatMessage() \x7b\n\treturn 2\n\x7d" = true ∧
    strContains
      ((alookup (runPipeline "telegram.go" exampleSrc.toList []) "REFACTORING_SUMMARY.md").getD "")
      "- command: 1 个函数" = true ∧
    strContains
      ((alookup (runPipeline "telegram.go" exampleSrc.toList []) "REFACTORING_SUMMARY.md").getD "")
      "- util: 1 个函数" = true := by
  refine ⟨by decide, by decide, by decide, ?_, ?_, ?_, ?_⟩ <;> decide

end RefactorTelegram
